import Mathlib

/-!
Verification of the `taskflow` dependency-aware task scheduler.

The development shallowly embeds the two source modules:

* `task.py` — the `Task` class: status state machine, cancellation flag,
  result slot, lifecycle callbacks, `execute_task`, `cancel`,
  `mark_as_scheduled`.
* `scheduler.py` — the `Scheduler` class: the `task_to_dependencies` /
  `task_to_dependents` maps, `schedule`, the lifecycle handlers
  (`__on_task_completed`, `__on_task_failed`, `__on_task_canceled`),
  the `ready_tasks` generator and Kahn-style cycle detection
  (`__has_cycles`).

Tasks are identified by their `task_id` (equality and hashing in the source
compare only `_task_id`), modelled as a natural number.  Python dicts
preserve insertion order, so both scheduler maps are modelled as
association lists in insertion order.  Python sets are modelled as
duplicate-free lists.  The work function of a task (`execute`) is an
opaque callable that either returns a value or raises; it is modelled as
a pure outcome per task.
-/

namespace Taskflow

/-- Task identifiers: the source compares tasks by `_task_id` only. -/
abbrev TaskId := Nat

/-- The `TaskStatus` enum of `task.py`. -/
inductive TaskStatus
  | pending
  | scheduled
  | running
  | failed
  | completed
  | canceled
deriving DecidableEq

/-- Outcome of a task's opaque work function (`Task.execute`): a returned
value or a raised exception. -/
inductive WorkRes
  | ok (v : Nat)
  | exn (e : Nat)
deriving DecidableEq

/-- Which lifecycle callback fired during `execute_task`. -/
inductive CbKind
  | onCompleted
  | onFailed
  | onCanceled
deriving DecidableEq

/-- The mutable part of a `Task` object from `task.py`, together with the
immutable dependency set and which of the three single-slot callbacks are
registered.  `workRuns` counts invocations of the work function
(`self.execute()`); it is instrumentation only and is written exactly
where the source calls `self.execute()`. -/
structure TaskObj where
  dependencies : List TaskId
  status : TaskStatus
  flag : Bool
  result : Option WorkRes
  workRuns : Nat
  hasOnCompleted : Bool
  hasOnFailed : Bool
  hasOnCanceled : Bool
deriving DecidableEq

/-- A freshly constructed task (`Task.__init__`): pending, flag clear,
result `None`, no callbacks registered. -/
def TaskObj.init (deps : List TaskId) : TaskObj :=
  { dependencies := deps
    status := .pending
    flag := false
    result := none
    workRuns := 0
    hasOnCompleted := false
    hasOnFailed := false
    hasOnCanceled := false }

/-- `Task.cancel`: `self.__canceled_event.set()` — sets the cancellation
flag and nothing else. -/
def TaskObj.cancel (t : TaskObj) : TaskObj :=
  { t with flag := true }

/-- `Task.mark_as_scheduled`: unconditionally assigns
`self.__task_status = TaskStatus.SCHEDULED`. -/
def TaskObj.mark_as_scheduled (t : TaskObj) : TaskObj :=
  { t with status := .scheduled }

/-- Result of one call to `Task.execute_task`: the updated object, the
list of callbacks that fired (in order), whether the work function was
invoked, and the sequence of statuses assigned (in order). -/
structure ExecOut where
  task : TaskObj
  fired : List CbKind
  workInvoked : Bool
  statusTrace : List TaskStatus
deriving DecidableEq

/-- `Task.execute_task` from `task.py`, with the given outcome of the
opaque work function.  Mirrors the source control flow: if the
cancellation flag is set, assign `CANCELED` and fire `on_canceled` (if
registered), never touching the work function or the result; otherwise
assign `RUNNING`, invoke the work function, and either store the returned
value, assign `COMPLETED` and fire `on_completed`, or store the raised
exception, assign `FAILED` and fire `on_failed`. -/
def TaskObj.execute_task (t : TaskObj) (work : WorkRes) : ExecOut :=
  if t.flag then
    { task := { t with status := .canceled }
      fired := if t.hasOnCanceled then [.onCanceled] else []
      workInvoked := false
      statusTrace := [.canceled] }
  else
    match work with
    | .ok v =>
        { task := { t with status := .completed, result := some (.ok v),
                           workRuns := t.workRuns + 1 }
          fired := if t.hasOnCompleted then [.onCompleted] else []
          workInvoked := true
          statusTrace := [.running, .completed] }
    | .exn e =>
        { task := { t with status := .failed, result := some (.exn e),
                           workRuns := t.workRuns + 1 }
          fired := if t.hasOnFailed then [.onFailed] else []
          workInvoked := true
          statusTrace := [.running, .failed] }

/-- A settled (terminal) status: `COMPLETED`, `FAILED` or `CANCELED`. -/
def terminalB : TaskStatus → Bool
  | .completed => true
  | .failed => true
  | .canceled => true
  | _ => false

/-! ## The scheduler's dependency graph

`Scheduler.__task_to_dependencies` and `Scheduler.__task_to_dependents`
are Python dicts from tasks to sets of tasks; dicts iterate in insertion
order, so both are association lists in insertion order, with the value
sets as duplicate-free lists. -/

/-- Association-list lookup with the empty list as default, matching how
the source reads `task_to_dependencies[t]` (always present when `t` is
registered) and `task_to_dependents[t]` (a `defaultdict(set)`). -/
def alookup (l : List (TaskId × List TaskId)) (k : TaskId) : List TaskId :=
  match l with
  | [] => []
  | (k', v) :: r => if k' = k then v else alookup r k

/-- Python `set.add`: insert an element if absent. -/
def addToSet (l : List TaskId) (x : TaskId) : List TaskId :=
  if x ∈ l then l else l ++ [x]

/-- `self.__task_to_dependents[dependency].add(task)` on a
`defaultdict(set)`: extend the entry for `d` with `t`, creating the entry
(at the end, as a fresh dict key) when missing. -/
def addDependentEdge (dl : List (TaskId × List TaskId)) (d t : TaskId) :
    List (TaskId × List TaskId) :=
  match dl with
  | [] => [(d, [t])]
  | (k, v) :: r => if k = d then (k, addToSet v t) :: r else (k, v) :: addDependentEdge r d t

/-- The two maps owned by a `Scheduler`. -/
structure Graph where
  tasks : List (TaskId × List TaskId)
  dependents : List (TaskId × List TaskId)
deriving DecidableEq

/-- The registered tasks, in registration (= dict iteration) order. -/
def Graph.keys (g : Graph) : List TaskId :=
  g.tasks.map Prod.fst

/-- The dependency snapshot of a registered task. -/
def Graph.depsOf (g : Graph) (t : TaskId) : List TaskId :=
  alookup g.tasks t

/-- The recorded dependents of a task. -/
def Graph.dependentsOf (g : Graph) (t : TaskId) : List TaskId :=
  alookup g.dependents t

/-- A scheduler with no tasks registered. -/
def Graph.empty : Graph := ⟨[], []⟩

/-- `Scheduler.schedule(task)`: raise (second component `true`) when a
task with the same identifier is already a key of
`task_to_dependencies`, leaving both maps untouched; otherwise snapshot
the task's dependency set and add the task as a dependent of each of its
dependencies.  `ds.dedup` models the Python set of dependencies. -/
def schedule (g : Graph) (t : TaskId) (ds : List TaskId) : Graph × Bool :=
  if t ∈ g.keys then (g, true)
  else
    ({ tasks := g.tasks ++ [(t, ds.dedup)]
       dependents := ds.dedup.foldl (fun dl d => addDependentEdge dl d t) g.dependents },
     false)

/-- Well-formedness of the scheduler maps: registered identifiers are
distinct (`schedule` refuses duplicates), every stored set is
duplicate-free, and `task_to_dependents` is exactly the transpose of
`task_to_dependencies` restricted to registered tasks — the invariant
stated in the data-model section of the design. -/
def WF (g : Graph) : Prop :=
  g.keys.Nodup ∧
  (g.dependents.map Prod.fst).Nodup ∧
  (∀ p ∈ g.tasks, p.2.Nodup) ∧
  (∀ p ∈ g.dependents, p.2.Nodup) ∧
  (∀ p ∈ g.dependents, ∀ t ∈ p.2, t ∈ g.keys ∧ p.1 ∈ g.depsOf t) ∧
  (∀ p ∈ g.tasks, ∀ d ∈ p.2, p.1 ∈ g.dependentsOf d)

instance (g : Graph) : Decidable (WF g) := by
  unfold WF
  exact inferInstance

/-! ## Cycle detection (`Scheduler.__has_cycles`)

Kahn's algorithm: the per-task dependency count, a queue seeded with the
zero-count tasks, and a loop popping tasks and decrementing the counts of
their dependents, enqueueing any count that reaches zero.  Counts live in
`Int`, as Python integers do.  The loop runs on fuel; one unit per pop,
and `|registered| + 1` units are enough because no task is ever enqueued
twice (established below). -/

/-- The body of `for dependent in self.__task_to_dependents[task]:` —
decrement each listed task's count and collect, in order, those whose
count just reached zero. -/
def processDeps : List TaskId → (TaskId → Int) → (TaskId → Int) × List TaskId
  | [], deg => (deg, [])
  | d :: r, deg =>
      if deg d - 1 = 0 then
        ((processDeps r (Function.update deg d (deg d - 1))).1,
          d :: (processDeps r (Function.update deg d (deg d - 1))).2)
      else processDeps r (Function.update deg d (deg d - 1))

/-- The `while ready_queue:` loop of `__has_cycles`, returning the final
`processed_count`. -/
def kahnLoop (g : Graph) : Nat → List TaskId → (TaskId → Int) → Nat → Nat
  | 0, _, _, processed => processed
  | _ + 1, [], _, processed => processed
  | fuel + 1, u :: rest, deg, processed =>
      let pr := processDeps (g.dependentsOf u) deg
      kahnLoop g fuel (rest ++ pr.2) pr.1 (processed + 1)

/-- `out_degree = {task: len(dependencies) ...}` as a count function. -/
def degInit (g : Graph) : TaskId → Int :=
  fun t => ((g.depsOf t).length : Int)

/-- The seed queue: registered tasks with dependency count zero, in dict
iteration order. -/
def seeds (g : Graph) : List TaskId :=
  (g.tasks.filter (fun p => p.2.length = 0)).map Prod.fst

/-- The final `processed_count` of `__has_cycles`. -/
def kahnProcessed (g : Graph) : Nat :=
  kahnLoop g (g.keys.length + 1) (seeds g) (degInit g) 0

/-- `Scheduler.__has_cycles`: `processed_count != len(task_to_dependencies)`. -/
def hasCycles (g : Graph) : Bool :=
  kahnProcessed g != g.keys.length

/-! ## The running system

A `Sys` is the scheduler's graph plus the status/flag/result state of
every `Task` object.  `schedule` registers the scheduler's three
lifecycle handlers on each registered task, so executing a registered
task runs `execute_task` with the handlers inlined:
`__on_task_completed` only notifies the condition variable, while
`__on_task_failed` and `__on_task_canceled` additionally call `cancel()`
on every direct dependent of the task (setting their flags) before
notifying. -/

/-- The mutable fields of one `Task` object as the scheduler sees them.
`workRuns` counts invocations of the work function, as in `TaskObj`. -/
structure TState where
  status : TaskStatus
  flag : Bool
  result : Option WorkRes
  workRuns : Nat
deriving DecidableEq

/-- A freshly constructed task: `PENDING`, flag clear, result `None`. -/
def TState.init : TState :=
  { status := .pending, flag := false, result := none, workRuns := 0 }

/-- The scheduler plus every task object's state. -/
structure Sys where
  g : Graph
  st : TaskId → TState

/-- All tasks freshly constructed. -/
def initSys (g : Graph) : Sys :=
  { g := g, st := fun _ => TState.init }

/-- Update one task's state. -/
def Sys.upd (s : Sys) (t : TaskId) (f : TState → TState) : Sys :=
  { s with st := Function.update s.st t (f (s.st t)) }

/-- `ready_task.mark_as_scheduled()` inside `ready_tasks`. -/
def Sys.markScheduled (s : Sys) (t : TaskId) : Sys :=
  s.upd t fun u => { u with status := .scheduled }

/-- `for dependents in self.__task_to_dependents[task]: dependents.cancel()`
— the cascade step of `__on_task_failed` / `__on_task_canceled`: set the
cancellation flag of every direct dependent.  `cancel()` sets only the
flag; it changes no status and fires no callback. -/
def flagList (l : List TaskId) (s : Sys) : Sys :=
  l.foldl (fun s' d => s'.upd d fun u => { u with flag := true }) s

/-- The direct dependents cascade for a just-failed or just-canceled task. -/
def Sys.flagDependents (s : Sys) (t : TaskId) : Sys :=
  flagList (s.g.dependentsOf t) s

/-- `Task.execute_task` run on registered task `t` with the scheduler's
handlers subscribed, where `work t` is the outcome of the task's opaque
work function.  Mirrors the source: flag set → `CANCELED`, fire
`on_canceled` (the handler flags the direct dependents); otherwise
`RUNNING`, invoke the work function, then `COMPLETED` + `on_completed`
(the handler only notifies) or `FAILED` + `on_failed` (the handler flags
the direct dependents). -/
def executeTask (work : TaskId → WorkRes) (s : Sys) (t : TaskId) : Sys :=
  if (s.st t).flag then
    (s.upd t fun u => { u with status := .canceled }).flagDependents t
  else
    let s1 := s.upd t fun u => { u with status := .running, workRuns := u.workRuns + 1 }
    match work t with
    | .ok v =>
        s1.upd t fun u => { u with result := some (.ok v), status := .completed }
    | .exn e =>
        ((s1.upd t fun u => { u with result := some (.exn e), status := .failed
                              }).flagDependents t)

/-- Whether one call of `execute_task` will set dependents' flags: it
does exactly when the task ends `CANCELED` (flag was set) or `FAILED`
(work raised) — the two handlers that cascade. -/
def cascadesB (flag : Bool) (w : WorkRes) : Bool :=
  flag || (match w with | .ok _ => false | .exn _ => true)

/-- The settled-dependency test of `ready_tasks`:
`dep.status != RUNNING and dep.status != PENDING and dep.status != SCHEDULED`. -/
def settledB (st : TaskStatus) : Bool :=
  !(st == .running) && !(st == .pending) && !(st == .scheduled)

/-- One entry of the `for task, dependencies in items()` scan: `task` is
`PENDING` and all of its stored dependencies are settled. -/
def readyEntry (s : Sys) (p : TaskId × List TaskId) : Bool :=
  ((s.st p.1).status == .pending) && p.2.all (fun d => settledB (s.st d).status)

/-- `any(task.status == PENDING for task in task_to_dependencies.keys())`. -/
def hasPendingB (s : Sys) : Bool :=
  s.g.keys.any (fun t => (s.st t).status == .pending)

/-- The first ready task in dict iteration order, as found by the scan. -/
def findReady (s : Sys) : Option TaskId :=
  (s.g.tasks.find? (readyEntry s)).map Prod.fst

/-- What one resumption of the `ready_tasks` generator does. -/
inductive GenOut
  | raised
  | finished
  | blocked
  | yielded (t : TaskId)
deriving DecidableEq

/-- The generator's program counter: `start` is a generator that has
never been advanced (about to run the cycle check), `loop` is a generator
suspended at a `yield` inside the `while True:` loop. -/
inductive GenPc
  | start
  | loop
deriving DecidableEq

/-- One iteration of the `while True:` loop of `ready_tasks`: if no
registered task is `PENDING`, return; otherwise scan for the first ready
task, mark it `SCHEDULED` and yield it, or block on the condition
variable when none is ready.  (With a single consumer thread, a
`wait()` that nothing will notify is a permanent block.) -/
def genLoopIter (s : Sys) : GenOut × Sys :=
  if hasPendingB s then
    match findReady s with
    | some t => (.yielded t, s.markScheduled t)
    | none => (.blocked, s)
  else (.finished, s)

/-- One resumption of the `ready_tasks` generator.  Only the first
advance (pc `start`) runs the cycle check; a resumption after a yield
re-enters the loop directly. -/
def genResume (s : Sys) (pc : GenPc) : GenOut × Sys :=
  match pc with
  | .start => if hasCycles s.g then (.raised, s) else genLoopIter s
  | .loop => genLoopIter s

/-- How a drain of `ready_tasks` by a sequential consumer ends. -/
inductive DrainRes
  | finished
  | cycleError
  | blocked
  | fuelOut
deriving DecidableEq

/-- The consumer loop of the design's control flow: repeatedly advance
the generator and run `execute_task` on each yielded task.  Returns the
outcome, the final system state, and the yield trace — each yielded task
with a snapshot of the system at the moment of the yield (the task just
marked `SCHEDULED`).  `fuelOut` stands for a run longer than the given
fuel; the claims proved below hold for every fuel. -/
def drainAux (work : TaskId → WorkRes) :
    Nat → Sys → GenPc → List (TaskId × Sys) → DrainRes × Sys × List (TaskId × Sys)
  | 0, s, _, tr => (.fuelOut, s, tr)
  | fuel + 1, s, pc, tr =>
      match genResume s pc with
      | (.raised, s') => (.cycleError, s', tr)
      | (.finished, s') => (.finished, s', tr)
      | (.blocked, s') => (.blocked, s', tr)
      | (.yielded t, s') => drainAux work fuel (executeTask work s' t) .loop (tr ++ [(t, s')])

/-- Drain `ready_tasks` from a fresh generator. -/
def runDrain (work : TaskId → WorkRes) (fuel : Nat) (s : Sys) :
    DrainRes × Sys × List (TaskId × Sys) :=
  drainAux work fuel s .start []

/-- The dependency edge among registered tasks: `a` depends on `b`. -/
def depEdge (g : Graph) (a b : TaskId) : Prop :=
  a ∈ g.keys ∧ b ∈ g.keys ∧ b ∈ g.depsOf a

/-- The dependent edge recorded by the scheduler: `b` is a direct
dependent of `a`. -/
def depentEdge (g : Graph) (a b : TaskId) : Prop :=
  b ∈ g.dependentsOf a

/-! ## Sequences of public `Task` operations

For the status state machine we need runs of the three public mutating
operations of `Task`: `mark_as_scheduled`, `cancel` and `execute_task`. -/

/-- One public `Task` operation (an `exec` carries the outcome the
opaque work function would produce). -/
inductive TaskOp
  | markScheduled
  | cancel
  | exec (work : WorkRes)
deriving DecidableEq

/-- Apply one operation to a task object. -/
def applyOp (t : TaskObj) : TaskOp → TaskObj
  | .markScheduled => t.mark_as_scheduled
  | .cancel => t.cancel
  | .exec w => (t.execute_task w).task

/-- Apply a sequence of operations left to right. -/
def applyOps (t : TaskObj) : List TaskOp → TaskObj
  | [] => t
  | o :: r => applyOps (applyOp t o) r

/-- The scheduler's calling discipline: `mark_as_scheduled` is called
only on a `PENDING` task (inside `ready_tasks`, right before the yield)
and `execute_task` only on the `SCHEDULED` task just yielded; `cancel`
may be called at any time. -/
def allowedB (t : TaskObj) : TaskOp → Bool
  | .markScheduled => t.status == .pending
  | .cancel => true
  | .exec _ => t.status == .scheduled

/-- A whole run obeys the discipline. -/
def allowedRunB (t : TaskObj) : List TaskOp → Bool
  | [] => true
  | o :: r => allowedB t o && allowedRunB (applyOp t o) r

/-- The statuses an operation assigns, in order (`cancel` assigns none). -/
def opTrace (t : TaskObj) : TaskOp → List TaskStatus
  | .markScheduled => [.scheduled]
  | .cancel => []
  | .exec w => (t.execute_task w).statusTrace

/-- All statuses assigned during a run. -/
def statusTraceRun (t : TaskObj) : List TaskOp → List TaskStatus
  | [] => []
  | o :: r => opTrace t o ++ statusTraceRun (applyOp t o) r

/-- The edges of the status state machine of the design:
`Pending → {Scheduled → {Running → {Completed, Failed}}, Canceled}` with
`Canceled` also reachable from `Scheduled`. -/
def machineEdgeB : TaskStatus → TaskStatus → Bool
  | .pending, .scheduled => true
  | .pending, .canceled => true
  | .scheduled, .running => true
  | .scheduled, .canceled => true
  | .running, .completed => true
  | .running, .failed => true
  | _, _ => false

/-- A step of a status trace: stay put or follow a machine edge. -/
def stepOkB (a b : TaskStatus) : Bool :=
  (a == b) || machineEdgeB a b

/-! ## Proof-side invariants -/

/-- Invariant of the states reached between iterations of a sequential
drain of `ready_tasks` that executes every yielded task: no registered
task is left `SCHEDULED` or `RUNNING`; a `PENDING` task has never run its
work function; a task with an unsettled dependency is still `PENDING`; a
task one of whose dependencies is `FAILED` or `CANCELED` has its
cancellation flag set; and a flagged task is either still `PENDING` or
already `CANCELED` without its work function ever having run. -/
def DInv (s : Sys) : Prop :=
  (∀ t ∈ s.g.keys, (s.st t).status ≠ .scheduled ∧ (s.st t).status ≠ .running) ∧
  (∀ t ∈ s.g.keys, (s.st t).status = .pending → (s.st t).workRuns = 0) ∧
  (∀ d ∈ s.g.keys, ∀ a ∈ s.g.depsOf d,
      settledB (s.st a).status = false → (s.st d).status = .pending) ∧
  (∀ d ∈ s.g.keys, ∀ a ∈ s.g.depsOf d,
      ((s.st a).status = .failed ∨ (s.st a).status = .canceled) → (s.st d).flag = true) ∧
  (∀ d ∈ s.g.keys, (s.st d).flag = true →
      (s.st d).status = .pending ∨ ((s.st d).status = .canceled ∧ (s.st d).workRuns = 0))

/-- Invariant of the Kahn loop, with the order-insensitive bookkeeping
made explicit: `popped` is the (ghost) list of tasks popped so far, in
order.  No task is ever queued twice, every queued task is registered,
all dependencies of a popped or queued task are already popped, each
count equals the number of dependencies not yet popped, and no member of
the obstruction set `C` has been queued. -/
def KahnInv (g : Graph) (C : TaskId → Bool) (popped queue : List TaskId)
    (deg : TaskId → Int) : Prop :=
  (popped ++ queue).Nodup ∧
  (∀ t ∈ popped ++ queue, t ∈ g.keys) ∧
  (∀ t ∈ popped ++ queue, ∀ d ∈ g.depsOf t, d ∈ popped) ∧
  (∀ t ∈ g.keys, deg t =
      ((g.depsOf t).length : Int) -
      (((g.depsOf t).filter (fun d => decide (d ∈ popped))).length : Int)) ∧
  (∀ c, C c = true → c ∉ popped ∧ c ∉ queue)

/-- An obstruction set for the Kahn loop: a set of registered tasks each
of which has a dependency that is itself in the set or is unregistered.
Members of such a set can never be popped.  A dependency cycle gives one
(the tasks on the cycle), and so does a registered task with an
unregistered dependency. -/
def CClosed (g : Graph) (C : TaskId → Bool) : Prop :=
  ∀ c, C c = true → c ∈ g.keys ∧ ∃ d ∈ g.depsOf c, (C d = true ∨ d ∉ g.keys)

/-! ## Concrete scenarios used as witnesses and counterexamples -/

/-- Tasks `0` (no dependencies, work raises) and `1` (depends on `0`). -/
def exgFail : Graph := (schedule (schedule Graph.empty 0 []).1 1 [0]).1

/-- Work outcomes: task `0` raises, every other task returns `1`. -/
def exWorkFail : TaskId → WorkRes :=
  fun t => if t = 0 then .exn 7 else .ok 1

/-- Every task's work returns `0`. -/
def exWorkOk : TaskId → WorkRes := fun _ => .ok 0

/-- A single registered task `0` with no dependencies. -/
def exgOne : Graph := (schedule Graph.empty 0 []).1

/-- `exgOne` extended (mid-generator) with mutually dependent `1` and `2`. -/
def exgCyc : Graph := (schedule (schedule exgOne 1 [2]).1 2 [1]).1

/-- The system after the first advance of `ready_tasks` on `exgOne`
(task `0` just yielded), with the cyclic pair then registered. -/
def exsResume : Sys :=
  { g := exgCyc, st := ((genResume (initSys exgOne) .start).2).st }

/-- Task `0` depending on the never-registered task `5`. -/
def exgUnreg : Graph := (schedule Graph.empty 0 [5]).1

/-! ### Association-list lemmas -/

theorem alookup_eq_of_mem {l : List (TaskId × List TaskId)} {k : TaskId} {v : List TaskId}
    (hnd : (l.map Prod.fst).Nodup) (hmem : (k, v) ∈ l) : alookup l k = v := by
  induction l with
  | nil => cases hmem
  | cons p r ih =>
      obtain ⟨k', v'⟩ := p
      simp only [List.map_cons, List.nodup_cons] at hnd
      rcases List.mem_cons.mp hmem with h | h
      · cases h
        simp [alookup]
      · have hne : k' ≠ k := by
          intro he
          exact hnd.1 (he ▸ (List.mem_map.mpr ⟨(k, v), h, rfl⟩))
        simp only [alookup, if_neg hne]
        exact ih hnd.2 h

theorem mem_alookup_exists {l : List (TaskId × List TaskId)} {k x : TaskId}
    (h : x ∈ alookup l k) : ∃ v, (k, v) ∈ l ∧ x ∈ v := by
  induction l with
  | nil => cases h
  | cons p r ih =>
      obtain ⟨k', v'⟩ := p
      by_cases hk : k' = k
      · subst hk
        simp only [alookup, if_pos rfl] at h
        exact ⟨v', List.mem_cons_self _ _, h⟩
      · simp only [alookup, if_neg hk] at h
        obtain ⟨v, hv, hx⟩ := ih h
        exact ⟨v, List.mem_cons_of_mem _ hv, hx⟩

theorem alookup_nodup {l : List (TaskId × List TaskId)} {k : TaskId}
    (h : ∀ p ∈ l, p.2.Nodup) : (alookup l k).Nodup := by
  induction l with
  | nil => exact List.nodup_nil
  | cons p r ih =>
      obtain ⟨k', v'⟩ := p
      by_cases hk : k' = k
      · simp only [alookup, if_pos hk]
        exact h (k', v') (List.mem_cons_self _ _)
      · simp only [alookup, if_neg hk]
        exact ih fun p hp => h p (List.mem_cons_of_mem _ hp)

theorem mem_keys_iff {g : Graph} {t : TaskId} :
    t ∈ g.keys ↔ ∃ v, (t, v) ∈ g.tasks := by
  constructor
  · intro h
    obtain ⟨⟨a, b⟩, hp, he⟩ := List.mem_map.mp h
    cases he
    exact ⟨b, hp⟩
  · rintro ⟨v, hv⟩
    exact List.mem_map.mpr ⟨(t, v), hv, rfl⟩

theorem depsOf_eq_of_mem {g : Graph} (hwf : WF g) {t : TaskId} {v : List TaskId}
    (hmem : (t, v) ∈ g.tasks) : g.depsOf t = v :=
  alookup_eq_of_mem hwf.1 hmem

/-- The transpose invariant, in closed form: membership in a dependents
set is registration plus the reverse dependency edge. -/
theorem WF.mem_dependentsOf_iff {g : Graph} (hwf : WF g) (u t : TaskId) :
    t ∈ g.dependentsOf u ↔ (t ∈ g.keys ∧ u ∈ g.depsOf t) := by
  constructor
  · intro h
    obtain ⟨v, hv, ht⟩ := mem_alookup_exists h
    exact hwf.2.2.2.2.1 (u, v) hv t ht
  · rintro ⟨hk, hd⟩
    obtain ⟨v, hv⟩ := mem_keys_iff.mp hk
    have hdv : g.depsOf t = v := depsOf_eq_of_mem hwf hv
    exact hwf.2.2.2.2.2 (t, v) hv u (hdv ▸ hd)

theorem WF.depsOf_nodup {g : Graph} (hwf : WF g) (t : TaskId) : (g.depsOf t).Nodup :=
  alookup_nodup hwf.2.2.1

theorem WF.dependentsOf_nodup {g : Graph} (hwf : WF g) (t : TaskId) :
    (g.dependentsOf t).Nodup :=
  alookup_nodup hwf.2.2.2.1

theorem WF.dependentsOf_mem_keys {g : Graph} (hwf : WF g) {u t : TaskId}
    (h : t ∈ g.dependentsOf u) : t ∈ g.keys :=
  ((hwf.mem_dependentsOf_iff u t).mp h).1

/-! ### Small facts about statuses and the generator -/

theorem settledB_iff (st : TaskStatus) :
    settledB st = true ↔ (st = .completed ∨ st = .failed ∨ st = .canceled) := by
  cases st <;> simp [settledB]

theorem terminalB_eq_settledB (st : TaskStatus) : terminalB st = settledB st := by
  cases st <;> rfl

theorem genLoopIter_ne_raised (s : Sys) : (genLoopIter s).1 ≠ .raised := by
  unfold genLoopIter
  by_cases h : hasPendingB s
  · simp only [if_pos h]
    cases hf : findReady s <;> simp
  · simp [if_neg h]

/-- `List.find?` finds the first satisfying element. -/
theorem find?_first {α : Type} (p : α → Bool) (l : List α) (a : α)
    (h : l.find? p = some a) :
    ∃ l1 l2, l = l1 ++ a :: l2 ∧ (∀ x ∈ l1, p x = false) ∧ p a = true := by
  induction l with
  | nil => cases h
  | cons x r ih =>
      by_cases hx : p x
      · rw [List.find?_cons_of_pos _ hx] at h
        cases h
        exact ⟨[], r, rfl, by simp, hx⟩
      · rw [List.find?_cons_of_neg _ (by simpa using hx)] at h
        obtain ⟨l1, l2, he, hall, hpa⟩ := ih h
        exact ⟨x :: l1, l2, by rw [he, List.cons_append],
          by
            intro y hy
            rcases List.mem_cons.mp hy with h' | h'
            · subst h'; simpa using hx
            · exact hall y h',
          hpa⟩

theorem findReady_spec {s : Sys} {t : TaskId} (h : findReady s = some t) :
    ∃ ds, (t, ds) ∈ s.g.tasks ∧ readyEntry s (t, ds) = true := by
  unfold findReady at h
  cases hf : s.g.tasks.find? (readyEntry s) with
  | none => rw [hf] at h; cases h
  | some q =>
      rw [hf] at h
      obtain ⟨q1, q2⟩ := q
      cases h
      exact ⟨q2, List.mem_of_find?_eq_some hf, List.find?_some hf⟩

theorem readyEntry_pending {s : Sys} {q : TaskId × List TaskId}
    (h : readyEntry s q = true) : (s.st q.1).status = .pending := by
  unfold readyEntry at h
  simp only [Bool.and_eq_true, beq_iff_eq] at h
  exact h.1

theorem readyEntry_settled {s : Sys} {q : TaskId × List TaskId}
    (h : readyEntry s q = true) : ∀ d ∈ q.2, settledB (s.st d).status = true := by
  unfold readyEntry at h
  simp only [Bool.and_eq_true, List.all_eq_true] at h
  exact h.2

/-! ### The drain and the generator leave the graph alone -/

theorem Sys.upd_g (s : Sys) (t : TaskId) (f : TState → TState) : (s.upd t f).g = s.g := rfl

theorem markScheduled_g (s : Sys) (t : TaskId) : (s.markScheduled t).g = s.g := rfl

theorem flagList_g (l : List TaskId) (s : Sys) : (flagList l s).g = s.g := by
  induction l generalizing s with
  | nil => rfl
  | cons d r ih => simpa [flagList] using ih (s.upd d fun u => { u with flag := true })

theorem flagDependents_g (s : Sys) (t : TaskId) : (s.flagDependents t).g = s.g :=
  flagList_g _ _

theorem executeTask_g (work : TaskId → WorkRes) (s : Sys) (t : TaskId) :
    (executeTask work s t).g = s.g := by
  unfold executeTask
  by_cases h : (s.st t).flag
  · simp only [if_pos h]
    exact flagDependents_g _ _
  · simp only [if_neg h]
    cases work t
    · rfl
    · exact flagDependents_g _ _

theorem genResume_g (s : Sys) (pc : GenPc) : ((genResume s pc).2).g = s.g := by
  cases pc
  · unfold genResume
    by_cases h : hasCycles s.g
    · simp [h]
    · simp only [if_neg h]
      unfold genLoopIter
      by_cases hp : hasPendingB s
      · simp only [if_pos hp]
        cases hf : findReady s <;> simp [markScheduled_g]
      · simp [hp]
  · unfold genResume genLoopIter
    by_cases hp : hasPendingB s
    · simp only [if_pos hp]
      cases hf : findReady s <;> simp [markScheduled_g]
    · simp [hp]

/-! ### State updates read back -/

theorem Sys.upd_st_same (s : Sys) (t : TaskId) (f : TState → TState) :
    (s.upd t f).st t = f (s.st t) := by
  simp [Sys.upd]

theorem Sys.upd_st_other (s : Sys) (t : TaskId) (f : TState → TState) {x : TaskId}
    (h : x ≠ t) : (s.upd t f).st x = s.st x := by
  simp [Sys.upd, Function.update_noteq h]

theorem markScheduled_st_same (s : Sys) (t : TaskId) :
    ((s.markScheduled t).st t).status = .scheduled := by
  simp [Sys.markScheduled, Sys.upd_st_same]

theorem markScheduled_st_other (s : Sys) (t : TaskId) {x : TaskId} (h : x ≠ t) :
    (s.markScheduled t).st x = s.st x :=
  Sys.upd_st_other _ _ _ h

/-- The flag cascade pointwise: members of the list get their flag set,
everything else is untouched. -/
theorem flagList_st (l : List TaskId) (s : Sys) (x : TaskId) :
    (flagList l s).st x =
      if x ∈ l then { s.st x with flag := true } else s.st x := by
  induction l generalizing s with
  | nil => simp [flagList]
  | cons d r ih =>
      have hstep : flagList (d :: r) s =
          flagList r (s.upd d fun u => { u with flag := true }) := rfl
      rw [hstep, ih]
      by_cases hx : x ∈ d :: r
      · rcases List.mem_cons.mp hx with he | hm
        · subst he
          by_cases hm : x ∈ r
          · simp [hm, hx, Sys.upd_st_same]
          · simp [hm, hx, Sys.upd_st_same]
        · by_cases he : x = d
          · subst he
            simp [hm, hx, Sys.upd_st_same]
          · simp [hm, hx, Sys.upd_st_other _ _ _ he]
      · have hd : x ≠ d := fun he => hx (he ▸ List.mem_cons_self d r)
        have hm : x ∉ r := fun hm => hx (List.mem_cons_of_mem _ hm)
        simp [hm, hx, Sys.upd_st_other _ _ _ hd]

/-! ## Claim theorems: the `Task` level -/

/-- Claim C4: `schedule(t)` raises a scheduling error if and only if a
task with `t`'s identifier is already registered (a key of
`task_to_dependencies`), and when it raises, both `task_to_dependencies`
and `task_to_dependents` are left unchanged. -/
theorem schedule_duplicate (g : Graph) (t : TaskId) (ds : List TaskId) :
    ((schedule g t ds).2 = true ↔ t ∈ g.keys) ∧
    ((schedule g t ds).2 = true → (schedule g t ds).1 = g) := by
  unfold schedule
  by_cases h : t ∈ g.keys <;> simp [h]

/-- Claim C6: one call to `execute_task` has exactly one of three
mutually exclusive outcomes.  Flag set: status `CANCELED`, `on_canceled`
fires (if registered), the work function is never invoked and the result
slot is untouched.  Flag clear: status `RUNNING` first, the work function
runs, and then either `COMPLETED` with the returned value stored and
`on_completed` fired, or `FAILED` with the raised exception stored and
`on_failed` fired. -/
theorem execute_task_outcomes (t : TaskObj) (work : WorkRes) :
    (t.flag = true →
      (t.execute_task work).task.status = .canceled ∧
      (t.execute_task work).fired = (if t.hasOnCanceled then [CbKind.onCanceled] else []) ∧
      (t.execute_task work).workInvoked = false ∧
      (t.execute_task work).task.result = t.result ∧
      (t.execute_task work).statusTrace = [.canceled]) ∧
    (t.flag = false →
      (t.execute_task work).workInvoked = true ∧
      (t.execute_task work).statusTrace.head? = some .running ∧
      (∀ v, work = .ok v →
        (t.execute_task work).task.status = .completed ∧
        (t.execute_task work).task.result = some (.ok v) ∧
        (t.execute_task work).fired =
          (if t.hasOnCompleted then [CbKind.onCompleted] else []) ∧
        (t.execute_task work).statusTrace = [.running, .completed]) ∧
      (∀ e, work = .exn e →
        (t.execute_task work).task.status = .failed ∧
        (t.execute_task work).task.result = some (.exn e) ∧
        (t.execute_task work).fired =
          (if t.hasOnFailed then [CbKind.onFailed] else []) ∧
        (t.execute_task work).statusTrace = [.running, .failed])) ∧
    (((t.execute_task work).task.status = .canceled ∧
        (t.execute_task work).workInvoked = false) ∨
     ((t.execute_task work).task.status = .completed ∧
        (t.execute_task work).workInvoked = true) ∨
     ((t.execute_task work).task.status = .failed ∧
        (t.execute_task work).workInvoked = true)) := by
  by_cases h : t.flag <;> cases work <;>
    simp [TaskObj.execute_task, h]

/-- Claim C9: `cancel()` is idempotent and modifies only the cancellation
flag — status, result, dependency set (and the run count) are untouched,
in every status. -/
theorem cancel_idempotent_frame (t : TaskObj) :
    t.cancel.status = t.status ∧
    t.cancel.result = t.result ∧
    t.cancel.dependencies = t.dependencies ∧
    t.cancel.workRuns = t.workRuns ∧
    t.cancel.flag = true ∧
    t.cancel.cancel = t.cancel := by
  simp [TaskObj.cancel]

/-- Claim C8 (amended): the `Task` operations follow the status state
machine and never leave a terminal status — under the scheduler's calling
discipline (`mark_as_scheduled` only on a `PENDING` task, `execute_task`
only on the `SCHEDULED` task just yielded; `cancel` any time).  The
operations themselves have no guards, so the discipline hypothesis is
necessary (see the counterexample). -/
theorem task_ops_disciplined (t : TaskObj) (ops : List TaskOp)
    (h : allowedRunB t ops = true) :
    List.Chain' (fun a b => stepOkB a b = true) (t.status :: statusTraceRun t ops) ∧
    (terminalB t.status = true → (applyOps t ops).status = t.status) := by
  induction ops generalizing t with
  | nil => exact ⟨List.chain'_singleton _, fun _ => rfl⟩
  | cons o r ih =>
      simp only [allowedRunB, Bool.and_eq_true] at h
      obtain ⟨ho, hr⟩ := h
      obtain ⟨ihc, iht⟩ := ih (applyOp t o) hr
      cases o with
      | cancel =>
          refine ⟨?_, ?_⟩
          · show List.Chain' _ (t.status :: ([] ++ statusTraceRun (applyOp t .cancel) r))
            exact ihc
          · intro ht
            show (applyOps (applyOp t .cancel) r).status = t.status
            exact iht ht
      | markScheduled =>
          have hp : t.status = .pending := by
            simpa [allowedB] using ho
          refine ⟨?_, ?_⟩
          · show List.Chain' _
              (t.status :: (.scheduled :: statusTraceRun (applyOp t .markScheduled) r))
            have hst : (applyOp t .markScheduled).status = .scheduled := rfl
            refine List.Chain'.cons ?_ (by rw [← hst]; exact ihc)
            rw [hp]
            rfl
          · intro ht
            rw [hp] at ht
            cases ht
      | exec w =>
          have hp : t.status = .scheduled := by
            simpa [allowedB] using ho
          refine ⟨?_, ?_⟩
          · show List.Chain' _
              (t.status :: ((t.execute_task w).statusTrace ++
                statusTraceRun (applyOp t (.exec w)) r))
            by_cases hf : t.flag
            · have htr : (t.execute_task w).statusTrace = [.canceled] := by
                simp [TaskObj.execute_task, hf]
              have hst : (applyOp t (.exec w)).status = .canceled := by
                simp [applyOp, TaskObj.execute_task, hf]
              rw [htr, hp]
              refine List.Chain'.cons (by rfl) ?_
              rw [← hst]
              exact ihc
            · cases w with
              | ok v =>
                  have htr : (t.execute_task (.ok v)).statusTrace =
                      [.running, .completed] := by
                    simp [TaskObj.execute_task, hf]
                  have hst : (applyOp t (.exec (.ok v))).status = .completed := by
                    simp [applyOp, TaskObj.execute_task, hf]
                  rw [htr, hp]
                  refine List.Chain'.cons (by rfl) (List.Chain'.cons (by rfl) ?_)
                  rw [← hst]
                  exact ihc
              | exn e =>
                  have htr : (t.execute_task (.exn e)).statusTrace =
                      [.running, .failed] := by
                    simp [TaskObj.execute_task, hf]
                  have hst : (applyOp t (.exec (.exn e))).status = .failed := by
                    simp [applyOp, TaskObj.execute_task, hf]
                  rw [htr, hp]
                  refine List.Chain'.cons (by rfl) (List.Chain'.cons (by rfl) ?_)
                  rw [← hst]
                  exact ihc
          · intro ht
            rw [hp] at ht
            cases ht

/-- Witness for C8: a disciplined run `mark_as_scheduled`,
`execute_task` (success), `cancel` from a fresh task follows the machine,
and its trace is `Pending, Scheduled, Running, Completed`. -/
theorem task_ops_disciplined_witness :
    List.Chain' (fun a b => stepOkB a b = true)
      ((TaskObj.init []).status ::
        statusTraceRun (TaskObj.init [])
          [TaskOp.markScheduled, TaskOp.exec (.ok 5), TaskOp.cancel]) ∧
    (terminalB (TaskObj.init []).status = true →
      (applyOps (TaskObj.init [])
        [TaskOp.markScheduled, TaskOp.exec (.ok 5), TaskOp.cancel]).status =
        (TaskObj.init []).status) :=
  task_ops_disciplined (TaskObj.init [])
    [TaskOp.markScheduled, TaskOp.exec (.ok 5), TaskOp.cancel] (by decide)

/-- Counterexample to C8 as stated: from a fresh task,
`mark_as_scheduled; execute_task` reaches the terminal status
`COMPLETED`, and a further call to the public operation
`mark_as_scheduled` moves the task back out, to `SCHEDULED`. -/
theorem mark_as_scheduled_exits_terminal :
    (applyOps (TaskObj.init [])
      [TaskOp.markScheduled, TaskOp.exec (.ok 1)]).status = .completed ∧
    terminalB .completed = true ∧
    (applyOps (TaskObj.init [])
      [TaskOp.markScheduled, TaskOp.exec (.ok 1), TaskOp.markScheduled]).status =
      .scheduled ∧
    terminalB .scheduled = false := by
  decide

/-- Claim C5 (amended): within one generator, the cycle check runs only
on the first advance — `genResume` raises from `start` exactly when the
graph has a cycle by `__has_cycles`, and a resumption after a yield
(`loop`) never raises.  (Each access to the `ready_tasks` property builds
a new generator, so the check does re-run per access — but not per
resumption.) -/
theorem cycle_check_first_advance_only (s : Sys) :
    ((genResume s .start).1 = .raised ↔ hasCycles s.g = true) ∧
    (genResume s .loop).1 ≠ .raised := by
  refine ⟨?_, genLoopIter_ne_raised s⟩
  unfold genResume
  by_cases h : hasCycles s.g
  · simp [h]
  · simp only [if_neg h]
    constructor
    · intro hr
      exact absurd hr (genLoopIter_ne_raised s)
    · intro hc
      exact absurd hc h

/-- Counterexample to C5 as stated: after yielding task `0`, the mutually
dependent tasks `1` and `2` are registered; the graph now has a cycle
(both by `__has_cycles` and structurally), yet the resumption blocks
instead of raising. -/
theorem cycle_at_resumption_does_not_raise :
    (genResume (initSys exgOne) .start).1 = .yielded 0 ∧
    hasCycles exgCyc = true ∧
    Relation.TransGen (depEdge exgCyc) 1 1 ∧
    (genResume exsResume .loop).1 = .blocked ∧
    (genResume exsResume .loop).1 ≠ .raised := by
  refine ⟨by decide, by decide, ?_, by decide, by decide⟩
  have h12 : depEdge exgCyc 1 2 := ⟨by decide, by decide, by decide⟩
  have h21 : depEdge exgCyc 2 1 := ⟨by decide, by decide, by decide⟩
  exact Relation.TransGen.tail (Relation.TransGen.single h12) h21

/-! ### What a yield means -/

theorem genLoopIter_yielded {s : Sys} {t : TaskId} {s' : Sys}
    (h : genLoopIter s = (.yielded t, s')) :
    findReady s = some t ∧ s' = s.markScheduled t := by
  unfold genLoopIter at h
  by_cases hp : hasPendingB s
  · rw [if_pos hp] at h
    cases hf : findReady s with
    | none => rw [hf] at h; cases h
    | some u =>
        rw [hf] at h
        have h1 : GenOut.yielded u = GenOut.yielded t := congrArg Prod.fst h
        have h2 : s.markScheduled u = s' := congrArg Prod.snd h
        cases h1
        exact ⟨hf.symm ▸ rfl, h2.symm⟩
  · rw [if_neg hp] at h
    cases h

theorem genResume_yielded {s : Sys} {pc : GenPc} {t : TaskId} {s' : Sys}
    (h : genResume s pc = (.yielded t, s')) :
    findReady s = some t ∧ s' = s.markScheduled t := by
  cases pc with
  | start =>
      unfold genResume at h
      by_cases hc : hasCycles s.g
      · rw [if_pos hc] at h; cases h
      · rw [if_neg hc] at h
        exact genLoopIter_yielded h
  | loop => exact genLoopIter_yielded h

/-- At the moment of a yield, every dependency of the yielded task is
settled in the snapshot (the yielded task itself was `PENDING`, hence is
not among its own dependencies). -/
theorem yield_snapshot_settled {g : Graph} (hwf : WF g) {s : Sys} {t : TaskId}
    (hg : s.g = g) (hf : findReady s = some t) :
    ∀ d ∈ g.depsOf t, settledB ((s.markScheduled t).st d).status = true := by
  obtain ⟨ds, hmem, hready⟩ := findReady_spec hf
  have hds : g.depsOf t = ds := depsOf_eq_of_mem hwf (hg ▸ hmem)
  intro d hd
  rw [hds] at hd
  have hsettled : settledB (s.st d).status = true := readyEntry_settled hready d hd
  have hne : d ≠ t := by
    intro he
    subst he
    rw [readyEntry_pending hready] at hsettled
    cases hsettled
  rw [markScheduled_st_other s t hne]
  exact hsettled

/-- Every yield recorded by a drain satisfies the settled-dependencies
property, whatever the starting point. -/
theorem drainAux_trace_settled (work : TaskId → WorkRes) {g : Graph} (hwf : WF g) :
    ∀ (fuel : Nat) (s : Sys) (pc : GenPc) (tr : List (TaskId × Sys)), s.g = g →
      (∀ p ∈ tr, ∀ d ∈ g.depsOf p.1, settledB ((p.2).st d).status = true) →
      ∀ p ∈ (drainAux work fuel s pc tr).2.2, ∀ d ∈ g.depsOf p.1,
        settledB ((p.2).st d).status = true := by
  intro fuel
  induction fuel with
  | zero =>
      intro s pc tr _ htr
      simpa [drainAux] using htr
  | succ n ih =>
      intro s pc tr hg htr
      show ∀ p ∈ (match genResume s pc with
        | (.raised, s') => (DrainRes.cycleError, s', tr)
        | (.finished, s') => (DrainRes.finished, s', tr)
        | (.blocked, s') => (DrainRes.blocked, s', tr)
        | (.yielded t, s') =>
            drainAux work n (executeTask work s' t) .loop (tr ++ [(t, s')])).2.2, _
      cases hgen : genResume s pc with
      | mk out s' =>
          cases out with
          | raised => simpa using htr
          | finished => simpa using htr
          | blocked => simpa using htr
          | yielded t =>
              obtain ⟨hf, hs'⟩ := genResume_yielded hgen
              have hg' : (executeTask work s' t).g = g := by
                rw [executeTask_g, hs', markScheduled_g, hg]
              refine ih (executeTask work s' t) .loop (tr ++ [(t, s')]) hg' ?_
              intro p hp
              rcases List.mem_append.mp hp with hmem | hmem
              · exact htr p hmem
              · rcases List.mem_singleton.mp hmem with rfl
                subst hs'
                exact yield_snapshot_settled hwf hg hf

/-- Claim C2: `ready_tasks` never yields a task while any of its
dependencies is `PENDING`, `SCHEDULED` or `RUNNING` — at the moment of
every yield of a drain, each dependency of the yielded task is
`COMPLETED`, `FAILED` or `CANCELED`. -/
theorem ready_tasks_deps_settled (g : Graph) (work : TaskId → WorkRes) (fuel : Nat)
    (hwf : WF g) :
    ∀ p ∈ (runDrain work fuel (initSys g)).2.2, ∀ d ∈ g.depsOf p.1,
      ((p.2.st d).status = .completed ∨ (p.2.st d).status = .failed ∨
        (p.2.st d).status = .canceled) := by
  intro p hp d hd
  have h := drainAux_trace_settled work hwf fuel (initSys g) .start [] rfl
    (by intro p hp; cases hp) p hp d hd
  exact (settledB_iff _).mp h

/-- Witness for C2: in the two-task scenario (task `0` fails, task `1`
depends on `0`), the second yield's snapshot shows dependency `0`
settled. -/
theorem ready_tasks_deps_settled_witness :
    ((((runDrain exWorkFail 10 (initSys exgFail)).2.2.get ⟨1, by decide⟩).2.st 0).status =
        .completed ∨
     (((runDrain exWorkFail 10 (initSys exgFail)).2.2.get ⟨1, by decide⟩).2.st 0).status =
        .failed ∨
     (((runDrain exWorkFail 10 (initSys exgFail)).2.2.get ⟨1, by decide⟩).2.st 0).status =
        .canceled) :=
  ready_tasks_deps_settled exgFail exWorkFail 10 (by decide)
    ((runDrain exWorkFail 10 (initSys exgFail)).2.2.get ⟨1, by decide⟩)
    (List.get_mem _ _ _) 0 (by decide)

/-! ### The Kahn loop: bookkeeping

`processDeps` only ever returns the updated counts in its first
component, so both components can be described pointwise. -/

theorem processDeps_fst_cons (d : TaskId) (r : List TaskId) (deg : TaskId → Int) :
    (processDeps (d :: r) deg).1 =
      (processDeps r (Function.update deg d (deg d - 1))).1 := by
  simp only [processDeps]
  by_cases h0 : deg d - 1 = 0 <;> simp [h0]

theorem processDeps_snd_cons (d : TaskId) (r : List TaskId) (deg : TaskId → Int) :
    (processDeps (d :: r) deg).2 =
      if deg d - 1 = 0
        then d :: (processDeps r (Function.update deg d (deg d - 1))).2
        else (processDeps r (Function.update deg d (deg d - 1))).2 := by
  simp only [processDeps]
  by_cases h0 : deg d - 1 = 0 <;> simp [h0]

theorem processDeps_deg {ds : List TaskId} (hnd : ds.Nodup) :
    ∀ (deg : TaskId → Int) (t : TaskId),
      (processDeps ds deg).1 t = if t ∈ ds then deg t - 1 else deg t := by
  induction ds with
  | nil => intro deg t; simp [processDeps]
  | cons d r ih =>
      intro deg t
      simp only [List.nodup_cons] at hnd
      rw [processDeps_fst_cons, ih hnd.2]
      by_cases htd : t = d
      · subst htd
        have : t ∉ r := hnd.1
        simp [this, Function.update_same]
      · rw [Function.update_noteq htd]
        by_cases htr : t ∈ r
        · simp [htr, List.mem_cons, htd]
        · simp [htr, List.mem_cons, htd]

theorem processDeps_adds {ds : List TaskId} (hnd : ds.Nodup) :
    ∀ (deg : TaskId → Int),
      (processDeps ds deg).2 = ds.filter (fun x => decide (deg x - 1 = 0)) := by
  induction ds with
  | nil => intro deg; simp [processDeps]
  | cons d r ih =>
      intro deg
      simp only [List.nodup_cons] at hnd
      have hcongr : r.filter (fun x => decide ((Function.update deg d (deg d - 1)) x - 1 = 0)) =
          r.filter (fun x => decide (deg x - 1 = 0)) := by
        refine List.filter_congr ?_
        intro x hx
        have hxd : x ≠ d := fun he => hnd.1 (he ▸ hx)
        rw [Function.update_noteq hxd]
      rw [processDeps_snd_cons, List.filter_cons]
      by_cases h0 : deg d - 1 = 0
      · rw [if_pos h0, ih hnd.2, hcongr, if_pos (decide_eq_true h0)]
      · rw [if_neg h0, ih hnd.2, hcongr,
          if_neg (by simpa using h0)]

/-- Extending the popped list by a fresh element raises each settled
count by exactly the multiplicity (0 or 1) of that element. -/
theorem length_filter_mem_append {l : List TaskId} (popped : List TaskId) (u : TaskId)
    (hu : u ∉ popped) (hnd : l.Nodup) :
    (l.filter (fun d => decide (d ∈ popped ++ [u]))).length =
      (l.filter (fun d => decide (d ∈ popped))).length + (if u ∈ l then 1 else 0) := by
  induction l with
  | nil => simp
  | cons a r ih =>
      simp only [List.nodup_cons] at hnd
      have ihr := ih hnd.2
      rw [List.filter_cons, List.filter_cons]
      by_cases hau : a = u
      · subst hau
        have hur : a ∉ r := hnd.1
        rw [if_pos (by simp), if_neg (by simpa using hu)]
        simp only [List.length_cons, ihr, if_neg hur, List.mem_cons, true_or, if_pos]
      · have hmemif : (if u ∈ a :: r then 1 else 0) = (if u ∈ r then 1 else 0) := by
          by_cases hur : u ∈ r
          · rw [if_pos (List.mem_cons_of_mem _ hur), if_pos hur]
          · have hna : u ∉ a :: r := by
              intro hm
              rcases List.mem_cons.mp hm with he | hm'
              · exact hau he.symm
              · exact hur hm'
            rw [if_neg hna, if_neg hur]
        rw [hmemif]
        by_cases hap : a ∈ popped
        · rw [if_pos (by simp [List.mem_append, hap]), if_pos (by simpa using hap)]
          simp only [List.length_cons, ihr]
          omega
        · have hnpu : a ∉ popped ++ [u] := by
            intro hm
            rcases List.mem_append.mp hm with h1 | h1
            · exact hap h1
            · exact hau (List.mem_singleton.mp h1)
          rw [if_neg (by simpa using hnpu), if_neg (by simpa using hap)]
          exact ihr

theorem mem_filter_decide {α : Type} {l : List α} {p : α → Prop} [DecidablePred p]
    {a : α} (h : a ∈ l.filter (fun x => decide (p x))) : a ∈ l ∧ p a := by
  have h' := List.mem_filter.mp h
  exact ⟨h'.1, of_decide_eq_true h'.2⟩

theorem length_filter_eq_iff {α : Type} {l : List α} {p : α → Bool} :
    (l.filter p).length = l.length ↔ ∀ x ∈ l, p x = true := by
  constructor
  · intro h
    exact List.filter_eq_self.mp ((List.filter_sublist l).eq_of_length h)
  · intro h
    rw [List.filter_eq_self.mpr h]

theorem length_filter_lt {α : Type} {l : List α} {p : α → Bool} (a : α)
    (ha : a ∈ l) (hpa : p a = false) : (l.filter p).length < l.length := by
  refine Nat.lt_of_le_of_ne (List.length_filter_le p l) ?_
  intro he
  have := length_filter_eq_iff.mp he a ha
  rw [hpa] at this
  cases this

/-- One pop of the Kahn loop preserves the invariant. -/
theorem kahnInv_step {g : Graph} {C : TaskId → Bool} (hwf : WF g) (hC : CClosed g C)
    {popped rest : List TaskId} {deg : TaskId → Int} {u : TaskId}
    (hinv : KahnInv g C popped (u :: rest) deg) :
    KahnInv g C (popped ++ [u]) (rest ++ (processDeps (g.dependentsOf u) deg).2)
      (processDeps (g.dependentsOf u) deg).1 := by
  obtain ⟨hnd, hreg, hdeps, hdeg, hcf⟩ := hinv
  have hDnd : (g.dependentsOf u).Nodup := hwf.dependentsOf_nodup u
  have hDiff : ∀ x, x ∈ g.dependentsOf u ↔ x ∈ g.keys ∧ u ∈ g.depsOf x :=
    hwf.mem_dependentsOf_iff u
  have hadds : (processDeps (g.dependentsOf u) deg).2 =
      (g.dependentsOf u).filter (fun x => decide (deg x - 1 = 0)) :=
    processDeps_adds hDnd deg
  have hdeg1 : ∀ x, (processDeps (g.dependentsOf u) deg).1 x =
      if x ∈ g.dependentsOf u then deg x - 1 else deg x :=
    processDeps_deg hDnd deg
  have humem : u ∈ popped ++ u :: rest :=
    List.mem_append_right _ (List.mem_cons_self u rest)
  have hukeys : u ∈ g.keys := hreg u humem
  have hunp : u ∉ popped := fun hup =>
    (List.nodup_append.mp hnd).2.2 hup (List.mem_cons_self u rest)
  -- a task enqueued now is fresh and has all dependencies in popped ++ [u]
  have haddmem : ∀ x ∈ (processDeps (g.dependentsOf u) deg).2,
      x ∈ g.dependentsOf u ∧ deg x - 1 = 0 := by
    intro x hx
    rw [hadds] at hx
    exact mem_filter_decide hx
  have hfresh : ∀ x ∈ (processDeps (g.dependentsOf u) deg).2,
      x ∉ popped ++ u :: rest := by
    intro x hx hmem
    obtain ⟨hxD, hx0⟩ := haddmem x hx
    have hxkeys : x ∈ g.keys := ((hDiff x).mp hxD).1
    have hall : (g.depsOf x).filter (fun d => decide (d ∈ popped)) = g.depsOf x :=
      List.filter_eq_self.mpr fun a ha => decide_eq_true (hdeps x hmem a ha)
    have hdx := hdeg x hxkeys
    rw [hall] at hdx
    omega
  have henq : ∀ x ∈ (processDeps (g.dependentsOf u) deg).2,
      ∀ dd ∈ g.depsOf x, dd ∈ popped ++ [u] := by
    intro x hx
    obtain ⟨hxD, hx0⟩ := haddmem x hx
    have hxkeys : x ∈ g.keys := ((hDiff x).mp hxD).1
    have hud : u ∈ g.depsOf x := ((hDiff x).mp hxD).2
    have hcount := length_filter_mem_append popped u hunp (hwf.depsOf_nodup x)
    rw [if_pos hud] at hcount
    have hdx := hdeg x hxkeys
    have hlen : ((g.depsOf x).filter
        (fun d => decide (d ∈ popped ++ [u]))).length = (g.depsOf x).length := by
      omega
    intro dd hdd
    exact of_decide_eq_true (length_filter_eq_iff.mp hlen dd hdd)
  -- the old members' data transfers verbatim
  have holdmem : ∀ x, x ∈ popped ++ [u] ++ rest → x ∈ popped ++ u :: rest := by
    intro x hx
    rw [List.append_assoc, List.singleton_append] at hx
    exact hx
  refine ⟨?_, ?_, ?_, ?_, ?_⟩
  · -- nodup
    have hnd0 : (popped ++ [u] ++ rest).Nodup := by
      rw [List.append_assoc, List.singleton_append]
      exact hnd
    have hndadds : ((processDeps (g.dependentsOf u) deg).2).Nodup := by
      rw [hadds]
      exact hDnd.filter _
    have hdisj : (popped ++ [u] ++ rest).Disjoint
        ((processDeps (g.dependentsOf u) deg).2) := by
      intro a ha hb
      exact hfresh a hb (holdmem a ha)
    have := hnd0.append hndadds hdisj
    rw [List.append_assoc (popped ++ [u])] at this
    exact this
  · intro t ht
    rcases List.mem_append.mp ht with h1 | h1
    · rcases List.mem_append.mp h1 with h2 | h2
      · exact hreg t (List.mem_append_left _ h2)
      · rcases List.mem_singleton.mp h2 with rfl
        exact hukeys
    · rcases List.mem_append.mp h1 with h2 | h2
      · exact hreg t (List.mem_append_right _ (List.mem_cons_of_mem _ h2))
      · exact ((hDiff t).mp (haddmem t h2).1).1
  · intro t ht d hd
    rcases List.mem_append.mp ht with h1 | h1
    · rcases List.mem_append.mp h1 with h2 | h2
      · exact List.mem_append_left _ (hdeps t (List.mem_append_left _ h2) d hd)
      · rcases List.mem_singleton.mp h2 with rfl
        exact List.mem_append_left _ (hdeps t humem d hd)
    · rcases List.mem_append.mp h1 with h2 | h2
      · exact List.mem_append_left _
          (hdeps t (List.mem_append_right _ (List.mem_cons_of_mem _ h2)) d hd)
      · exact henq t h2 d hd
  · intro x hx
    rw [hdeg1 x]
    have hcount := length_filter_mem_append popped u hunp (hwf.depsOf_nodup x)
    have hdx := hdeg x hx
    by_cases hxD : x ∈ g.dependentsOf u
    · have hud : u ∈ g.depsOf x := ((hDiff x).mp hxD).2
      rw [if_pos hxD]
      rw [if_pos hud] at hcount
      omega
    · have hud : u ∉ g.depsOf x := fun hu' => hxD ((hDiff x).mpr ⟨hx, hu'⟩)
      rw [if_neg hxD]
      rw [if_neg hud] at hcount
      omega
  · intro c hc
    obtain ⟨hcp, hcq⟩ := hcf c hc
    have hcu : c ≠ u := fun he => hcq (he ▸ List.mem_cons_self u rest)
    have hcr : c ∉ rest := fun hm => hcq (List.mem_cons_of_mem _ hm)
    constructor
    · intro hm
      rcases List.mem_append.mp hm with h1 | h1
      · exact hcp h1
      · exact hcu (List.mem_singleton.mp h1)
    · intro hm
      rcases List.mem_append.mp hm with h1 | h1
      · exact hcr h1
      · -- c was enqueued: its obstructed dependency would have to be popped
        obtain ⟨hckeys, d0, hd0, hbad⟩ := hC c hc
        have hd0p : d0 ∈ popped ++ [u] := henq c h1 d0 hd0
        rcases hbad with hCd0 | hd0k
        · obtain ⟨hd0pop, hd0q⟩ := hcf d0 hCd0
          rcases List.mem_append.mp hd0p with h2 | h2
          · exact hd0pop h2
          · exact hd0q ((List.mem_singleton.mp h2) ▸ List.mem_cons_self u rest)
        · rcases List.mem_append.mp hd0p with h2 | h2
          · exact hd0k (hreg d0 (List.mem_append_left _ h2))
          · exact hd0k ((List.mem_singleton.mp h2) ▸ hukeys)

/-- Whatever the state, the processed count is bounded by the number of
registered tasks outside the obstruction set. -/
theorem kahnInv_popped_le {g : Graph} {C : TaskId → Bool}
    {popped queue : List TaskId} {deg : TaskId → Int}
    (hinv : KahnInv g C popped queue deg) :
    popped.length ≤ (g.keys.filter (fun t => !(C t))).length := by
  obtain ⟨hnd, hreg, _, _, hcf⟩ := hinv
  have hsub : popped ⊆ g.keys.filter (fun t => !(C t)) := by
    intro x hx
    refine List.mem_filter.mpr ⟨hreg x (List.mem_append_left _ hx), ?_⟩
    cases hCx : C x
    · rfl
    · exact absurd hx (hcf x hCx).1
  exact ((List.nodup_append.mp hnd).1.subperm hsub).length_le

theorem kahnLoop_le {g : Graph} {C : TaskId → Bool} (hwf : WF g) (hC : CClosed g C) :
    ∀ (fuel : Nat) (queue : List TaskId) (deg : TaskId → Int) (popped : List TaskId),
      KahnInv g C popped queue deg →
      kahnLoop g fuel queue deg popped.length ≤
        (g.keys.filter (fun t => !(C t))).length := by
  intro fuel
  induction fuel with
  | zero =>
      intro queue deg popped hinv
      exact kahnInv_popped_le hinv
  | succ n ih =>
      intro queue deg popped hinv
      cases queue with
      | nil => exact kahnInv_popped_le hinv
      | cons u rest =>
          have hstep := kahnInv_step hwf hC hinv
          have h := ih (rest ++ (processDeps (g.dependentsOf u) deg).2)
            (processDeps (g.dependentsOf u) deg).1 (popped ++ [u]) hstep
          rw [List.length_append] at h
          simpa [kahnLoop] using h

/-- The Kahn loop starts in the invariant. -/
theorem kahnInv_init {g : Graph} {C : TaskId → Bool} (hwf : WF g) (hC : CClosed g C) :
    KahnInv g C [] (seeds g) (degInit g) := by
  have hseed : ∀ t ∈ seeds g, g.depsOf t = [] := by
    intro t ht
    obtain ⟨⟨a, b⟩, hp, he⟩ := List.mem_map.mp ht
    cases he
    obtain ⟨hmem, hb⟩ := mem_filter_decide hp
    rw [depsOf_eq_of_mem hwf hmem]
    exact List.length_eq_zero.mp hb
  have hsub : List.Sublist (seeds g) g.keys :=
    (List.filter_sublist g.tasks).map Prod.fst
  refine ⟨?_, ?_, ?_, ?_, ?_⟩
  · simpa using hwf.1.sublist hsub
  · intro t ht
    simp only [List.nil_append] at ht
    exact hsub.subset ht
  · intro t ht d hd
    simp only [List.nil_append] at ht
    rw [hseed t ht] at hd
    cases hd
  · intro t _
    simp [degInit]
  · intro c hc
    refine ⟨by simp, ?_⟩
    intro hcs
    obtain ⟨_, d0, hd0, _⟩ := hC c hc
    rw [hseed c hcs] at hd0
    cases hd0

theorem kahnInv_popped_le_keys {g : Graph} {C : TaskId → Bool}
    {popped queue : List TaskId} {deg : TaskId → Int}
    (hinv : KahnInv g C popped queue deg) : popped.length ≤ g.keys.length := by
  obtain ⟨hnd, hreg, _, _, _⟩ := hinv
  have hsub : popped ⊆ g.keys := fun x hx => hreg x (List.mem_append_left _ hx)
  exact ((List.nodup_append.mp hnd).1.subperm hsub).length_le

/-- The fuel never runs out: past `|registered| + 1 - |popped|` units the
loop's result no longer depends on the fuel, because no task is ever
queued twice.  In particular the fuel used by `kahnProcessed` is enough,
so the model agrees with the unbounded Python loop. -/
theorem kahnLoop_fuel_stable {g : Graph} (hwf : WF g) :
    ∀ (fuel fuel' : Nat) (queue : List TaskId) (deg : TaskId → Int)
      (popped : List TaskId),
      KahnInv g (fun _ => false) popped queue deg →
      g.keys.length + 1 - popped.length ≤ fuel →
      g.keys.length + 1 - popped.length ≤ fuel' →
      kahnLoop g fuel queue deg popped.length =
        kahnLoop g fuel' queue deg popped.length := by
  intro fuel
  induction fuel with
  | zero =>
      intro fuel' queue deg popped hinv hb _
      have hle := kahnInv_popped_le_keys hinv
      omega
  | succ n ih =>
      intro fuel' queue deg popped hinv hb hb'
      have hle := kahnInv_popped_le_keys hinv
      cases fuel' with
      | zero => omega
      | succ m =>
          cases queue with
          | nil => rfl
          | cons u rest =>
              have hstep := kahnInv_step hwf (fun c hc => by cases hc) hinv
              have hih := ih m (rest ++ (processDeps (g.dependentsOf u) deg).2)
                (processDeps (g.dependentsOf u) deg).1 (popped ++ [u]) hstep
                (by simp only [List.length_append, List.length_singleton]; omega)
                (by simp only [List.length_append, List.length_singleton]; omega)
              rw [List.length_append] at hih
              simpa [kahnLoop] using hih

/-- `kahnProcessed` computes the true (fuel-free) processed count: any
fuel at least `|registered| + 1` gives the same answer. -/
theorem kahnProcessed_stable (g : Graph) (hwf : WF g) (m : Nat)
    (hm : g.keys.length + 1 ≤ m) :
    kahnLoop g m (seeds g) (degInit g) 0 = kahnProcessed g := by
  have hC : CClosed g (fun _ => false) := fun c hc => by cases hc
  have h := kahnLoop_fuel_stable hwf m (g.keys.length + 1) (seeds g) (degInit g) []
    (kahnInv_init hwf hC) (by simpa using hm) (by simp)
  exact h

/-- The processed count never exceeds the number of registered tasks. -/
theorem kahnProcessed_le (g : Graph) (hwf : WF g) :
    kahnProcessed g ≤ g.keys.length := by
  have hC : CClosed g (fun _ => false) := by
    intro c hc
    cases hc
  have h := kahnLoop_le hwf hC (g.keys.length + 1) (seeds g) (degInit g) []
    (kahnInv_init hwf hC)
  simpa [kahnProcessed, List.filter_true] using h

/-- A nonempty obstruction set forces a strictly smaller processed
count, hence a cycle report. -/
theorem kahnProcessed_lt {g : Graph} {C : TaskId → Bool} (hwf : WF g)
    (hC : CClosed g C) {c0 : TaskId} (hc0 : C c0 = true) :
    kahnProcessed g < g.keys.length := by
  have h := kahnLoop_le hwf hC (g.keys.length + 1) (seeds g) (degInit g) []
    (kahnInv_init hwf hC)
  have hlt : (g.keys.filter (fun t => !(C t))).length < g.keys.length :=
    length_filter_lt c0 (hC c0 hc0).1 (by simp [hc0])
  exact Nat.lt_of_le_of_lt h hlt

/-- When the cycle check reports a cycle, the very first advance of
`ready_tasks` raises: a drain yields nothing and (given any fuel at all)
ends in the scheduling error. -/
theorem hasCycles_raises {g : Graph} (hc : hasCycles g = true)
    (work : TaskId → WorkRes) (fuel : Nat) :
    (runDrain work fuel (initSys g)).2.2 = [] ∧
    (1 ≤ fuel → (runDrain work fuel (initSys g)).1 = .cycleError) := by
  cases fuel with
  | zero => exact ⟨rfl, fun h => absurd h (by omega)⟩
  | succ n =>
      have hstep : genResume (initSys g) .start = (.raised, initSys g) := by
        unfold genResume
        rw [show (initSys g).g = g from rfl, hc]
        rfl
      constructor
      · show (drainAux work (n + 1) (initSys g) .start []).2.2 = []
        unfold drainAux
        rw [hstep]
      · intro _
        show (drainAux work (n + 1) (initSys g) .start []).1 = .cycleError
        unfold drainAux
        rw [hstep]

/-- A cycle along dependency edges among registered tasks yields an
obstruction set: the tasks lying on some cycle. -/
theorem cClosed_of_cycle (g : Graph) (C : TaskId → Bool)
    (hC : ∀ t, C t = true ↔ Relation.TransGen (depEdge g) t t) : CClosed g C := by
  intro c hc
  have hcyc : Relation.TransGen (depEdge g) c c := (hC c).mp hc
  rcases Relation.TransGen.head'_iff.mp hcyc with ⟨x, hcx, hxc⟩
  refine ⟨hcx.1, x, hcx.2.2, Or.inl ?_⟩
  exact (hC x).mpr (Relation.TransGen.tail' hxc hcx)

/-- Claim C3: `__has_cycles` reports a cycle exactly when the processed
count of its Kahn loop falls short of the number of registered tasks;
and for every graph with a dependency cycle among registered tasks, a
drain of `ready_tasks` raises the scheduling error before yielding
anything. -/
theorem has_cycles_kahn (g : Graph) (hwf : WF g) :
    (hasCycles g = true ↔ kahnProcessed g < g.keys.length) ∧
    ((∃ c, Relation.TransGen (depEdge g) c c) →
      ∀ (work : TaskId → WorkRes) (fuel : Nat),
        (runDrain work fuel (initSys g)).2.2 = [] ∧
        (1 ≤ fuel → (runDrain work fuel (initSys g)).1 = .cycleError)) := by
  constructor
  · have hle := kahnProcessed_le g hwf
    unfold hasCycles
    constructor
    · intro h
      have hne : kahnProcessed g ≠ g.keys.length := by
        simpa using h
      omega
    · intro h
      have hne : kahnProcessed g ≠ g.keys.length := by omega
      simpa using hne
  · rintro ⟨c0, hc0⟩ work fuel
    have hdec : ∀ t, Decidable (Relation.TransGen (depEdge g) t t) :=
      fun t => Classical.propDecidable _
    have hC : CClosed g (fun t => @decide (Relation.TransGen (depEdge g) t t) (hdec t)) :=
      cClosed_of_cycle g _ (fun t => @decide_eq_true_iff _ (hdec t))
    have hlt : kahnProcessed g < g.keys.length :=
      kahnProcessed_lt hwf hC (@decide_eq_true _ (hdec c0) hc0)
    have hcyc : hasCycles g = true := by
      unfold hasCycles
      simpa using Nat.ne_of_lt hlt
    exact hasCycles_raises hcyc work fuel

/-- Claim C10: a registered task with a dependency that was never passed
to `schedule` makes the cycle check report a cycle — its count can never
reach zero — so `ready_tasks` raises the circular-dependency error even
when the dependency graph itself is acyclic. -/
theorem unregistered_dependency_reports_cycle (g : Graph) (t d : TaskId) (hwf : WF g)
    (ht : t ∈ g.keys) (hd : d ∈ g.depsOf t) (hnr : d ∉ g.keys) :
    hasCycles g = true ∧
    ∀ (work : TaskId → WorkRes) (fuel : Nat),
      (runDrain work fuel (initSys g)).2.2 = [] ∧
      (1 ≤ fuel → (runDrain work fuel (initSys g)).1 = .cycleError) := by
  have hC : CClosed g
      (fun c => decide (c ∈ g.keys) && !((g.depsOf c).all (fun x => decide (x ∈ g.keys)))) := by
    intro c hc
    simp only [Bool.and_eq_true, Bool.not_eq_true', List.all_eq_false,
      decide_eq_true_eq, decide_eq_false_iff_not] at hc
    obtain ⟨hck, x, hx, hxk⟩ := hc
    exact ⟨hck, x, hx, Or.inr hxk⟩
  have hc0 : (decide (t ∈ g.keys) &&
      !((g.depsOf t).all (fun x => decide (x ∈ g.keys)))) = true := by
    simp only [Bool.and_eq_true, Bool.not_eq_true', List.all_eq_false,
      decide_eq_true_eq, decide_eq_false_iff_not]
    exact ⟨ht, d, hd, hnr⟩
  have hlt : kahnProcessed g < g.keys.length := kahnProcessed_lt hwf hC hc0
  have hcyc : hasCycles g = true := by
    unfold hasCycles
    simpa using Nat.ne_of_lt hlt
  exact ⟨hcyc, fun work fuel => hasCycles_raises hcyc work fuel⟩

/-- Claim C7: one iteration of the `ready_tasks` loop terminates cleanly
when no registered task is `PENDING`; and whenever some entry of the
dependency map is ready (`PENDING` with all stored dependencies settled),
the iteration yields the first ready entry in the map's iteration order,
with its status set to `SCHEDULED` in the yielded snapshot. -/
theorem ready_tasks_iteration (s : Sys) :
    (hasPendingB s = false → genLoopIter s = (.finished, s)) ∧
    (∀ q ∈ s.g.tasks, readyEntry s q = true →
      ∃ t ds l1 l2,
        genLoopIter s = (.yielded t, s.markScheduled t) ∧
        ((s.markScheduled t).st t).status = .scheduled ∧
        s.g.tasks = l1 ++ (t, ds) :: l2 ∧
        readyEntry s (t, ds) = true ∧
        (∀ q' ∈ l1, readyEntry s q' = false)) := by
  constructor
  · intro h
    unfold genLoopIter
    rw [h]
    rfl
  · intro q hq hready
    have hpend : hasPendingB s = true := by
      unfold hasPendingB
      refine List.any_eq_true.mpr ⟨q.1, List.mem_map.mpr ⟨q, hq, rfl⟩, ?_⟩
      simp [readyEntry_pending hready]
    cases hf : s.g.tasks.find? (readyEntry s) with
    | none =>
        exact absurd hready (by simpa using List.find?_eq_none.mp hf q hq)
    | some r =>
        obtain ⟨l1, l2, hsplit, hfirst, hr⟩ := find?_first _ _ _ hf
        refine ⟨r.1, r.2, l1, l2, ?_, markScheduled_st_same s r.1, by simpa using hsplit,
          by simpa using hr, hfirst⟩
        unfold genLoopIter
        rw [hpend]
        simp only [if_pos rfl]
        unfold findReady
        rw [hf]
        rfl


/-! ### Executing one task, pointwise -/

theorem flagDependents_st (s : Sys) (t x : TaskId) :
    (s.flagDependents t).st x =
      if x ∈ s.g.dependentsOf t then { s.st x with flag := true } else s.st x := by
  rw [Sys.flagDependents, flagList_st]

theorem executeTask_st_self (work : TaskId → WorkRes) (s : Sys) (t : TaskId)
    (hself : t ∉ s.g.dependentsOf t) :
    (executeTask work s t).st t =
      (if (s.st t).flag then { s.st t with status := .canceled }
       else
         match work t with
         | .ok v =>
             { s.st t with
                 status := .completed
                 result := some (.ok v)
                 workRuns := (s.st t).workRuns + 1 }
         | .exn e =>
             { s.st t with
                 status := .failed
                 result := some (.exn e)
                 workRuns := (s.st t).workRuns + 1 }) := by
  unfold executeTask
  by_cases hf : (s.st t).flag
  · rw [if_pos hf, if_pos hf, flagDependents_st, Sys.upd_g, if_neg hself,
      Sys.upd_st_same]
  · rw [if_neg hf, if_neg hf]
    cases hw : work t with
    | ok v => rw [Sys.upd_st_same, Sys.upd_st_same]
    | exn e =>
        rw [flagDependents_st, Sys.upd_g, Sys.upd_g, if_neg hself,
          Sys.upd_st_same, Sys.upd_st_same]

theorem executeTask_st_other (work : TaskId → WorkRes) (s : Sys) (t : TaskId)
    {x : TaskId} (hx : x ≠ t) :
    (executeTask work s t).st x =
      (if x ∈ s.g.dependentsOf t ∧ cascadesB (s.st t).flag (work t) = true
        then { s.st x with flag := true } else s.st x) := by
  unfold executeTask
  by_cases hf : (s.st t).flag
  · rw [if_pos hf, flagDependents_st, Sys.upd_g, Sys.upd_st_other _ _ _ hx]
    have hcasc : cascadesB (s.st t).flag (work t) = true := by
      simp [cascadesB, hf]
    by_cases hmem : x ∈ s.g.dependentsOf t
    · rw [if_pos hmem, if_pos ⟨hmem, hcasc⟩]
    · rw [if_neg hmem, if_neg (fun h => hmem h.1)]
  · rw [if_neg hf]
    cases hw : work t with
    | ok v =>
        have hcasc : cascadesB (s.st t).flag (WorkRes.ok v) = false := by
          simp [cascadesB, hf]
        rw [if_neg (fun h => by rw [hcasc] at h; cases h.2),
          Sys.upd_st_other _ _ _ hx, Sys.upd_st_other _ _ _ hx]
    | exn e =>
        have hcasc : cascadesB (s.st t).flag (WorkRes.exn e) = true := by
          simp [cascadesB]
        rw [flagDependents_st, Sys.upd_g, Sys.upd_g,
          Sys.upd_st_other _ _ _ hx, Sys.upd_st_other _ _ _ hx]
        by_cases hmem : x ∈ s.g.dependentsOf t
        · rw [if_pos hmem, if_pos ⟨hmem, hcasc⟩]
        · rw [if_neg hmem, if_neg (fun h => hmem h.1)]

/-! ### The drain invariant -/

theorem DInv_init (g : Graph) : DInv (initSys g) := by
  refine ⟨?_, ?_, ?_, ?_, ?_⟩
  · intro t _
    exact ⟨fun h => (nomatch h), fun h => nomatch h⟩
  · intro t _ _
    rfl
  · intro d _ a _ _
    rfl
  · intro d _ a _ h
    rcases h with h | h <;> cases h
  · intro d _ h
    cases h

theorem no_pending_of_hasPendingB {s : Sys} (h : hasPendingB s = false) :
    ∀ t ∈ s.g.keys, (s.st t).status ≠ .pending := by
  intro t ht hpend
  have : hasPendingB s = true :=
    List.any_eq_true.mpr ⟨t, ht, by simp [hpend]⟩
  rw [h] at this
  cases this

theorem genLoopIter_finished {s s' : Sys} (h : genLoopIter s = (.finished, s')) :
    s' = s ∧ hasPendingB s = false := by
  unfold genLoopIter at h
  by_cases hp : hasPendingB s
  · rw [if_pos hp] at h
    cases hff : findReady s with
    | some u =>
        rw [hff] at h
        have := congrArg Prod.fst h
        simp at this
    | none =>
        rw [hff] at h
        have := congrArg Prod.fst h
        simp at this
  · rw [if_neg hp] at h
    have hs := congrArg Prod.snd h
    exact ⟨hs.symm, by simpa using hp⟩

theorem genResume_finished {s : Sys} {pc : GenPc} {s' : Sys}
    (h : genResume s pc = (.finished, s')) :
    s' = s ∧ hasPendingB s = false := by
  cases pc with
  | start =>
      unfold genResume at h
      by_cases hc : hasCycles s.g
      · rw [if_pos hc] at h
        have := congrArg Prod.fst h
        simp at this
      · rw [if_neg hc] at h
        exact genLoopIter_finished h
  | loop => exact genLoopIter_finished h

/-- Executing the task just found ready preserves the drain invariant. -/
theorem markScheduled_st_self (s : Sys) (t : TaskId) :
    (s.markScheduled t).st t = { s.st t with status := .scheduled } :=
  Sys.upd_st_same s t _

theorem markScheduled_flag (s : Sys) (t : TaskId) :
    ((s.markScheduled t).st t).flag = (s.st t).flag := by
  rw [markScheduled_st_self]

/-- Executing the task just found ready preserves the drain invariant. -/
theorem step_preserves_DInv {s : Sys} (hwf : WF s.g) (hinv : DInv s)
    {t : TaskId} (hf : findReady s = some t) (work : TaskId → WorkRes) :
    DInv (executeTask work (s.markScheduled t) t) := by
  obtain ⟨ds, htmem, hready⟩ := findReady_spec hf
  have hds : s.g.depsOf t = ds := depsOf_eq_of_mem hwf htmem
  have htkeys : t ∈ s.g.keys := mem_keys_iff.mpr ⟨ds, htmem⟩
  have htpend : (s.st t).status = .pending := readyEntry_pending hready
  have htdeps : ∀ d ∈ s.g.depsOf t, settledB (s.st d).status = true := by
    rw [hds]
    exact readyEntry_settled hready
  have hself : t ∉ s.g.dependentsOf t := by
    intro hm
    have hdt : t ∈ s.g.depsOf t := ((hwf.mem_dependentsOf_iff t t).mp hm).2
    have hst := htdeps t hdt
    rw [htpend] at hst
    cases hst
  obtain ⟨hL1, hL2, hL3, hL4, hL5⟩ := hinv
  have hm_other : ∀ x, x ≠ t → (s.markScheduled t).st x = s.st x :=
    fun x hx => Sys.upd_st_other s t _ hx
  have hexself := executeTask_st_self work (s.markScheduled t) t hself
  -- the flag of `t` is preserved by the whole step
  have hst2_flag : ((executeTask work (s.markScheduled t) t).st t).flag =
      (s.st t).flag := by
    rw [hexself]
    by_cases hfl : ((s.markScheduled t).st t).flag
    · rw [if_pos hfl]
      exact markScheduled_flag s t
    · rw [if_neg hfl]
      cases work t
      · exact markScheduled_flag s t
      · exact markScheduled_flag s t
  -- `t` ends in a terminal status
  have hterm : ((executeTask work (s.markScheduled t) t).st t).status = .canceled ∨
      ((executeTask work (s.markScheduled t) t).st t).status = .completed ∨
      ((executeTask work (s.markScheduled t) t).st t).status = .failed := by
    rw [hexself]
    by_cases hfl : ((s.markScheduled t).st t).flag
    · rw [if_pos hfl]
      exact Or.inl rfl
    · rw [if_neg hfl]
      cases work t
      · exact Or.inr (Or.inl rfl)
      · exact Or.inr (Or.inr rfl)
  have hsettled2 :
      settledB ((executeTask work (s.markScheduled t) t).st t).status = true := by
    rcases hterm with h | h | h <;> rw [h] <;> rfl
  -- when the flag was set, `t` is canceled with its run count untouched
  have hB1 : (s.st t).flag = true →
      ((executeTask work (s.markScheduled t) t).st t).status = .canceled := by
    intro hfl
    have hfl1 : ((s.markScheduled t).st t).flag = true := by
      rw [markScheduled_flag]
      exact hfl
    rw [hexself, if_pos hfl1]
  have hB2 : (s.st t).flag = true →
      ((executeTask work (s.markScheduled t) t).st t).workRuns =
        (s.st t).workRuns := by
    intro hfl
    have hfl1 : ((s.markScheduled t).st t).flag = true := by
      rw [markScheduled_flag]
      exact hfl
    rw [hexself, if_pos hfl1, markScheduled_st_self]
  -- a terminal failure/cancel of `t` means the cascading branch ran
  have hC : (((executeTask work (s.markScheduled t) t).st t).status = .failed ∨
      ((executeTask work (s.markScheduled t) t).st t).status = .canceled) →
      cascadesB (s.st t).flag (work t) = true := by
    intro h
    by_cases hfl : (s.st t).flag
    · simp [cascadesB, hfl]
    · have hfl1 : ¬(((s.markScheduled t).st t).flag = true) := by
        rw [markScheduled_flag]
        exact hfl
      cases hw : work t with
      | ok v =>
          have hcompl : ((executeTask work (s.markScheduled t) t).st t).status =
              .completed := by
            rw [hexself, if_neg hfl1, hw]
          rcases h with h | h <;> rw [hcompl] at h <;> cases h
      | exn e => simp [cascadesB, hw]
  -- the state of every other task, pointwise
  have hother : ∀ x, x ≠ t →
      (executeTask work (s.markScheduled t) t).st x =
        (if x ∈ s.g.dependentsOf t ∧ cascadesB (s.st t).flag (work t) = true
          then { s.st x with flag := true } else s.st x) := by
    intro x hx
    have h0 := executeTask_st_other work (s.markScheduled t) t hx
    simp only [markScheduled_g, markScheduled_flag, hm_other x hx] at h0
    exact h0
  have hother_status : ∀ x, x ≠ t →
      ((executeTask work (s.markScheduled t) t).st x).status = (s.st x).status := by
    intro x hx
    rw [hother x hx]
    by_cases hc : x ∈ s.g.dependentsOf t ∧ cascadesB (s.st t).flag (work t) = true
    · rw [if_pos hc]
    · rw [if_neg hc]
  have hother_runs : ∀ x, x ≠ t →
      ((executeTask work (s.markScheduled t) t).st x).workRuns =
        (s.st x).workRuns := by
    intro x hx
    rw [hother x hx]
    by_cases hc : x ∈ s.g.dependentsOf t ∧ cascadesB (s.st t).flag (work t) = true
    · rw [if_pos hc]
    · rw [if_neg hc]
  have hexg : (executeTask work (s.markScheduled t) t).g = s.g := by
    rw [executeTask_g, markScheduled_g]
  refine ⟨?_, ?_, ?_, ?_, ?_⟩
  · -- no task left SCHEDULED or RUNNING
    intro x hxk
    rw [hexg] at hxk
    by_cases hx : x = t
    · subst hx
      rcases hterm with h | h | h <;> rw [h] <;>
        exact ⟨fun hh => (nomatch hh), fun hh => nomatch hh⟩
    · rw [hother_status x hx]
      exact hL1 x hxk
  · -- PENDING tasks have never run
    intro x hxk hxp
    rw [hexg] at hxk
    by_cases hx : x = t
    · subst hx
      rcases hterm with h | h | h <;> rw [h] at hxp <;> cases hxp
    · rw [hother_runs x hx]
      rw [hother_status x hx] at hxp
      exact hL2 x hxk hxp
  · -- a task with an unsettled dependency is still PENDING
    intro d hdk a hda hau
    rw [hexg] at hdk
    rw [show (executeTask work (s.markScheduled t) t).g.depsOf d = s.g.depsOf d
      from congrArg (fun gr => Graph.depsOf gr d) hexg] at hda
    by_cases hat : a = t
    · subst hat
      rw [hsettled2] at hau
      cases hau
    · rw [hother_status a hat] at hau
      have hdp : (s.st d).status = .pending := hL3 d hdk a hda hau
      by_cases hdt : d = t
      · subst hdt
        have hsa := htdeps a hda
        rw [hsa] at hau
        cases hau
      · rw [hother_status d hdt]
        exact hdp
  · -- a FAILED/CANCELED dependency forces the flag
    intro d hdk a hda hfc
    rw [hexg] at hdk
    rw [show (executeTask work (s.markScheduled t) t).g.depsOf d = s.g.depsOf d
      from congrArg (fun gr => Graph.depsOf gr d) hexg] at hda
    by_cases hat : a = t
    · -- t itself just failed or was canceled: its dependents were flagged now
      subst hat
      have hdt : d ≠ a := by
        intro he
        subst he
        exact hself ((hwf.mem_dependentsOf_iff d d).mpr ⟨hdk, hda⟩)
      have hdd : d ∈ s.g.dependentsOf a :=
        (hwf.mem_dependentsOf_iff a d).mpr ⟨hdk, hda⟩
      have hcasc : cascadesB (s.st a).flag (work a) = true := hC hfc
      rw [hother d hdt, if_pos ⟨hdd, hcasc⟩]
    · -- an old failure: the flag was already set and flags are never cleared
      rw [hother_status a hat] at hfc
      have hflag : (s.st d).flag = true := hL4 d hdk a hda hfc
      by_cases hdt : d = t
      · subst hdt
        rw [hst2_flag]
        exact hflag
      · rw [hother d hdt]
        by_cases hc : d ∈ s.g.dependentsOf t ∧ cascadesB (s.st t).flag (work t) = true
        · rw [if_pos hc]
        · rw [if_neg hc]
          exact hflag
  · -- a flagged task is PENDING or CANCELED-without-running
    intro d hdk hflag
    rw [hexg] at hdk
    by_cases hdt : d = t
    · subst hdt
      rw [hst2_flag] at hflag
      exact Or.inr ⟨hB1 hflag, by rw [hB2 hflag]; exact hL2 d hdk htpend⟩
    · rw [hother d hdt] at hflag
      by_cases hc : d ∈ s.g.dependentsOf t ∧ cascadesB (s.st t).flag (work t) = true
      · -- newly (or already) flagged dependent: t is an unsettled dependency
        have htd : t ∈ s.g.depsOf d := ((hwf.mem_dependentsOf_iff t d).mp hc.1).2
        have hdp : (s.st d).status = .pending := by
          refine hL3 d hdk t htd ?_
          rw [htpend]
          rfl
        rw [hother_status d hdt]
        exact Or.inl hdp
      · rw [if_neg hc] at hflag
        rcases hL5 d hdk hflag with h | ⟨h1, h2⟩
        · rw [hother_status d hdt]
          exact Or.inl h
        · rw [hother_status d hdt, hother_runs d hdt]
          exact Or.inr ⟨h1, h2⟩

theorem drainAux_succ (work : TaskId → WorkRes) (n : Nat) (s : Sys) (pc : GenPc)
    (tr : List (TaskId × Sys)) :
    drainAux work (n + 1) s pc tr =
      (match genResume s pc with
       | (.raised, s') => (DrainRes.cycleError, s', tr)
       | (.finished, s') => (DrainRes.finished, s', tr)
       | (.blocked, s') => (DrainRes.blocked, s', tr)
       | (.yielded t, s') =>
           drainAux work n (executeTask work s' t) .loop (tr ++ [(t, s')])) := rfl

/-- A drain that ends cleanly ends with the invariant, the same graph,
and no registered task `PENDING`. -/
theorem drainAux_inv (work : TaskId → WorkRes) :
    ∀ (fuel : Nat) (s : Sys) (pc : GenPc) (tr : List (TaskId × Sys)),
      WF s.g → DInv s → (drainAux work fuel s pc tr).1 = .finished →
      DInv (drainAux work fuel s pc tr).2.1 ∧
      (drainAux work fuel s pc tr).2.1.g = s.g ∧
      hasPendingB (drainAux work fuel s pc tr).2.1 = false := by
  intro fuel
  induction fuel with
  | zero =>
      intro s pc tr _ _ hres
      cases hres
  | succ n ih =>
      intro s pc tr hwf hinv hres
      rw [drainAux_succ] at hres ⊢
      cases hgen : genResume s pc with
      | mk out s' =>
          rw [hgen] at hres
          cases out with
          | raised => cases hres
          | blocked => cases hres
          | finished =>
              obtain ⟨hs', hnp⟩ := genResume_finished hgen
              subst hs'
              exact ⟨hinv, rfl, hnp⟩
          | yielded t =>
              obtain ⟨hfr, hs'⟩ := genResume_yielded hgen
              subst hs'
              have hwf' : WF (executeTask work (s.markScheduled t) t).g := by
                rw [executeTask_g, markScheduled_g]
                exact hwf
              have hinv' : DInv (executeTask work (s.markScheduled t) t) :=
                step_preserves_DInv hwf hinv hfr work
              have hih := ih (executeTask work (s.markScheduled t) t) .loop
                (tr ++ [(t, s.markScheduled t)]) hwf' hinv' hres
              refine ⟨hih.1, ?_, hih.2.2⟩
              rw [hih.2.1, executeTask_g, markScheduled_g]

/-- Claim C1 (amended): when a sequential consumer drains `ready_tasks`
to clean termination, every transitive dependent of a task that ended
`FAILED` or `CANCELED` ends `CANCELED`, with its work function never
invoked.  (Contrary to the claim as stated, such dependents *are*
yielded — see the counterexample — because `cancel()` only sets a flag
and the cancellation is realized when the consumer executes them.) -/
theorem ready_tasks_cascade (g : Graph) (work : TaskId → WorkRes) (fuel : Nat)
    (A D : TaskId) (hwf : WF g)
    (hfin : (runDrain work fuel (initSys g)).1 = .finished)
    (hA : ((runDrain work fuel (initSys g)).2.1.st A).status = .failed ∨
          ((runDrain work fuel (initSys g)).2.1.st A).status = .canceled)
    (hreach : Relation.TransGen (depentEdge g) A D) :
    ((runDrain work fuel (initSys g)).2.1.st D).status = .canceled ∧
    ((runDrain work fuel (initSys g)).2.1.st D).workRuns = 0 := by
  obtain ⟨hinvF, hgF0, hnpF⟩ :=
    drainAux_inv work fuel (initSys g) .start [] hwf (DInv_init g) hfin
  have hgF : (runDrain work fuel (initSys g)).2.1.g = g := hgF0
  have hedge : ∀ a b,
      (((runDrain work fuel (initSys g)).2.1.st a).status = .failed ∨
       ((runDrain work fuel (initSys g)).2.1.st a).status = .canceled) →
      depentEdge g a b →
      ((runDrain work fuel (initSys g)).2.1.st b).status = .canceled ∧
      ((runDrain work fuel (initSys g)).2.1.st b).workRuns = 0 := by
    intro a b hfc hab
    have hbk : b ∈ g.keys := hwf.dependentsOf_mem_keys hab
    have hba : a ∈ g.depsOf b := ((hwf.mem_dependentsOf_iff a b).mp hab).2
    obtain ⟨hI1, hI2, hI3, hI4, hI5⟩ := hinvF
    have hbk' : b ∈ (runDrain work fuel (initSys g)).2.1.g.keys := by
      rw [hgF]
      exact hbk
    have hba' : a ∈ (runDrain work fuel (initSys g)).2.1.g.depsOf b := by
      rw [hgF]
      exact hba
    have hfl := hI4 b hbk' a hba' hfc
    rcases hI5 b hbk' hfl with h | h
    · exact absurd h (no_pending_of_hasPendingB hnpF b hbk')
    · exact h
  induction hreach with
  | single hab => exact hedge A _ hA hab
  | tail _ hcd ih => exact hedge _ _ (Or.inr ih.1) hcd

/-- Counterexample to C1 as stated: task `0`'s work raises; its direct
dependent `1` is nevertheless yielded by `ready_tasks` (second in the
trace), and only then reaches `CANCELED`, its work never invoked. -/
theorem failed_dependent_is_yielded :
    (runDrain exWorkFail 10 (initSys exgFail)).1 = .finished ∧
    ((runDrain exWorkFail 10 (initSys exgFail)).2.1.st 0).status = .failed ∧
    1 ∈ exgFail.dependentsOf 0 ∧
    1 ∈ (runDrain exWorkFail 10 (initSys exgFail)).2.2.map Prod.fst ∧
    ((runDrain exWorkFail 10 (initSys exgFail)).2.1.st 1).status = .canceled ∧
    ((runDrain exWorkFail 10 (initSys exgFail)).2.1.st 1).workRuns = 0 := by
  decide

/-- Witness for C1 (amended), on the two-task failing scenario. -/
theorem ready_tasks_cascade_witness :
    ((runDrain exWorkFail 10 (initSys exgFail)).2.1.st 1).status = .canceled ∧
    ((runDrain exWorkFail 10 (initSys exgFail)).2.1.st 1).workRuns = 0 :=
  ready_tasks_cascade exgFail exWorkFail 10 0 1 (by decide) (by decide)
    (Or.inl (by decide))
    (Relation.TransGen.single (show (1 : TaskId) ∈ exgFail.dependentsOf 0 by decide))

/-- Witness for C3, on the mutually-cyclic graph. -/
theorem has_cycles_kahn_witness :
    hasCycles exgCyc = true ↔ kahnProcessed exgCyc < exgCyc.keys.length :=
  (has_cycles_kahn exgCyc (by decide)).1

/-- Witness for C10, on the graph whose task `0` depends on the
never-registered `5`. -/
theorem unregistered_dependency_reports_cycle_witness :
    hasCycles exgUnreg = true :=
  (unregistered_dependency_reports_cycle exgUnreg 0 5 (by decide) (by decide)
    (by decide) (by decide)).1

end Taskflow
